import Mathlib

/-!
# Verification of pocketclaw-rs against its specification

Shallow embedding of the parts of the `pocketclaw-rs` sources that the
specification's claims are about, together with theorems settling each claim.

Embedded components and their sources:
* tool registry and metrics — `crates/tools/src/registry.rs`
* path sandbox, SSRF IP filter and output truncation — `crates/tools/src/sandbox.rs`
* webhook dedupe cache — `crates/server/src/gateway.rs`
* agent tool-calling loop — `crates/agent/src/agent_loop.rs`
* session summarization cadence — `crates/agent/src/session.rs` call sites

Machine integers (`u64`, `usize`, `i64`) are modelled as `Nat`/`Int`; the
counters involved never wrap in practice and no claim is about overflow.
-/

set_option autoImplicit false

namespace Pocketclaw

/-! ## Tool registry — `crates/tools/src/registry.rs`

The registry's `HashMap<String, Arc<dyn Tool>>` is modelled as a list of tool
definitions (the map's values in iteration order); a tool definition carries
the `name`, `description` and `parameters` fields serialized by
`list_definitions`. -/

/-- `ToolRegistry::ALLOW_ALL_MARKER`. -/
def ALLOW_ALL_MARKER : String := "*"

/-- The JSON object built for one tool by `list_definitions`. -/
structure ToolDef where
  name : String
  description : String
  parameters : String
deriving DecidableEq

/-- `ToolRegistry::is_tool_allowed`. -/
def is_tool_allowed (tool_name : String) (allowed_tools : List String) : Bool :=
  allowed_tools.any (fun a => a == tool_name || a == ALLOW_ALL_MARKER)

/-- `ToolRegistry::list_definitions` (returns every registered definition). -/
def list_definitions (tools : List ToolDef) : List ToolDef :=
  tools

/-- `ToolRegistry::list_definitions_for_permissions`. -/
def list_definitions_for_permissions (tools : List ToolDef)
    (allowed_tools : List String) : List ToolDef :=
  if allowed_tools.isEmpty then []
  else if allowed_tools.any (fun a => a == ALLOW_ALL_MARKER) then tools
  else tools.filter (fun t => allowed_tools.any (fun a => a == t.name))

/-- `ToolMetrics` (all four counters, `u64` as `Nat`). -/
structure ToolMetrics where
  execution_count : Nat
  success_count : Nat
  failure_count : Nat
  total_duration_ms : Nat
deriving DecidableEq

/-- `ToolMetrics::default()`. -/
def ToolMetrics.init : ToolMetrics :=
  ⟨0, 0, 0, 0⟩

/-- The update `record_metrics` applies to one tool's entry. -/
def record_entry (m : ToolMetrics) (duration_ms : Nat) (success : Bool) : ToolMetrics :=
  { execution_count := m.execution_count + 1
    total_duration_ms := m.total_duration_ms + duration_ms
    success_count := if success then m.success_count + 1 else m.success_count
    failure_count := if success then m.failure_count else m.failure_count + 1 }

/-- `ToolRegistry::record_metrics`: the metrics map (`HashMap` with
`or_default`) is modelled as a total function defaulting to zeros. -/
def record_metrics (m : String → ToolMetrics) (tool_name : String)
    (duration_ms : Nat) (success : Bool) : String → ToolMetrics :=
  fun n => if n = tool_name then record_entry (m tool_name) duration_ms success else m n

/-- One observed `record_metrics(tool, duration_ms, success)` call. -/
structure MetricsEvent where
  tool : String
  duration_ms : Nat
  success : Bool

/-- The metrics map after a sequence of `record_metrics` calls on a fresh
registry. -/
def run_metrics (events : List MetricsEvent) : String → ToolMetrics :=
  events.foldl (fun m e => record_metrics m e.tool e.duration_ms e.success)
    (fun _ => ToolMetrics.init)

/-! ## Output truncation — `crates/tools/src/sandbox.rs`

`truncate_output` slices the Rust string at a byte index, so strings are
modelled as byte sequences (`List Nat`); the footer is ASCII, so its bytes
are its character codes. -/

/-- The bytes of an ASCII string. -/
def strBytes (s : String) : List Nat :=
  s.data.map Char.toNat

/-- The footer `format!("\n\n--- OUTPUT TRUNCATED ({}B limit) ---", max_bytes)`
appends after the truncated prefix. -/
def truncFooter (max_bytes : Nat) : List Nat :=
  strBytes ("\n\n--- OUTPUT TRUNCATED (" ++ toString max_bytes ++ "B limit) ---")

/-- `truncate_output`. -/
def truncate_output (output : List Nat) (max_bytes : Nat) : List Nat :=
  if output.length ≤ max_bytes then output
  else output.take max_bytes ++ truncFooter max_bytes

/-! ## Helper lemmas -/

theorem any_beq_eq_mem (l : List String) (x : String) :
    l.any (fun a => a == x) = decide (x ∈ l) := by
  induction l with
  | nil => rfl
  | cons a as ih =>
    simp only [List.any_cons, ih, List.mem_cons]
    rcases Decidable.em (a = x) with h | h <;> rcases Decidable.em (x ∈ as) with h2 | h2 <;>
        simp [h, h2, eq_comm]
    rw [beq_false_of_ne h]
    exact (decide_eq_false (fun he => h he.symm)).symm

theorem run_metrics_eq_filtered (events : List MetricsEvent) (m₀ : String → ToolMetrics)
    (t : String) :
    (events.foldl (fun m e => record_metrics m e.tool e.duration_ms e.success) m₀) t
      = (events.filter (fun e => e.tool == t)).foldl
          (fun acc e => record_entry acc e.duration_ms e.success) (m₀ t) := by
  induction events generalizing m₀ with
  | nil => rfl
  | cons e es ih =>
    rcases Decidable.em (e.tool = t) with h | h
    · subst h
      simp [List.foldl_cons, List.filter_cons, ih, record_metrics]
    · have hb : (e.tool == t) = false := beq_false_of_ne h
      simp only [List.foldl_cons, List.filter_cons, hb, ih, record_metrics]
      rw [if_neg (fun hc => h hc.symm)]
      simp

theorem fold_record_entry_inv (l : List MetricsEvent) (acc : ToolMetrics)
    (h : acc.execution_count = acc.success_count + acc.failure_count) :
    (l.foldl (fun a e => record_entry a e.duration_ms e.success) acc).execution_count
        = (l.foldl (fun a e => record_entry a e.duration_ms e.success) acc).success_count
          + (l.foldl (fun a e => record_entry a e.duration_ms e.success) acc).failure_count
    ∧ (l.foldl (fun a e => record_entry a e.duration_ms e.success) acc).total_duration_ms
        = acc.total_duration_ms + (l.map (fun e => e.duration_ms)).sum := by
  induction l generalizing acc with
  | nil => exact ⟨h, by simp⟩
  | cons e es ih =>
    have hstep : (record_entry acc e.duration_ms e.success).execution_count
        = (record_entry acc e.duration_ms e.success).success_count
          + (record_entry acc e.duration_ms e.success).failure_count := by
      rcases e.success with _ | _ <;> simp [record_entry, h] <;> omega
    obtain ⟨h1, h2⟩ := ih (record_entry acc e.duration_ms e.success) hstep
    refine ⟨h1, ?_⟩
    rw [List.foldl_cons, h2]
    simp [record_entry]
    omega

/-! ## Claim theorems for the registry -/

/-- C5: `is_tool_allowed(name, allowed)` holds iff `allowed` contains `name` or
contains `"*"` (so it is false for every name on the empty list), and
`list_definitions_for_permissions` returns `[]` on the empty list, every
registered definition when `allowed` contains `"*"`, and otherwise exactly the
definitions of registered tools whose names appear in `allowed`. -/
theorem registry_permission_semantics (name : String) (allowed : List String)
    (tools : List ToolDef) :
    (is_tool_allowed name allowed = true ↔ name ∈ allowed ∨ ALLOW_ALL_MARKER ∈ allowed)
    ∧ is_tool_allowed name [] = false
    ∧ list_definitions_for_permissions tools [] = []
    ∧ (ALLOW_ALL_MARKER ∈ allowed → list_definitions_for_permissions tools allowed = tools)
    ∧ (ALLOW_ALL_MARKER ∉ allowed →
        list_definitions_for_permissions tools allowed
          = tools.filter (fun t => decide (t.name ∈ allowed))) := by
  refine ⟨?_, rfl, rfl, ?_, ?_⟩
  · constructor
    · intro h
      simp only [is_tool_allowed, List.any_eq_true, Bool.or_eq_true, beq_iff_eq] at h
      obtain ⟨a, ha, rfl | rfl⟩ := h
      · exact Or.inl ha
      · exact Or.inr ha
    · rintro (h | h)
      · simp only [is_tool_allowed, List.any_eq_true, Bool.or_eq_true, beq_iff_eq]
        exact ⟨name, h, Or.inl rfl⟩
      · simp only [is_tool_allowed, List.any_eq_true, Bool.or_eq_true, beq_iff_eq]
        exact ⟨ALLOW_ALL_MARKER, h, Or.inr rfl⟩
  · intro hstar
    have hne : allowed.isEmpty = false := by
      rcases allowed with _ | ⟨a, as⟩
      · simp at hstar
      · rfl
    have hany : allowed.any (fun a => a == ALLOW_ALL_MARKER) = true := by
      rw [any_beq_eq_mem]; exact decide_eq_true hstar
    simp [list_definitions_for_permissions, hne, hany]
  · intro hstar
    rcases Decidable.em (allowed = []) with h | h
    · subst h
      simp [list_definitions_for_permissions]
    · have hne : allowed.isEmpty = false := by
        rcases allowed with _ | ⟨a, as⟩
        · exact absurd rfl h
        · rfl
      have hany : allowed.any (fun a => a == ALLOW_ALL_MARKER) = false := by
        rw [any_beq_eq_mem]; exact decide_eq_false hstar
      simp only [list_definitions_for_permissions, hne, hany, Bool.false_eq_true,
        if_false]
      exact List.filter_congr (fun t _ => any_beq_eq_mem allowed t.name)

/-- C5 witness. -/
theorem registry_permission_semantics_witness :
    is_tool_allowed "read_file" ["read_file"] = true
    ∧ list_definitions_for_permissions [⟨"a", "d", "p"⟩] ["*"] = [⟨"a", "d", "p"⟩]
    ∧ list_definitions_for_permissions [⟨"a", "d", "p"⟩, ⟨"b", "d", "p"⟩] ["b"]
        = [⟨"b", "d", "p"⟩] := by
  refine ⟨?_, ?_, ?_⟩
  · exact ((registry_permission_semantics "read_file" ["read_file"] []).1).2
      (Or.inl (by decide))
  · exact (registry_permission_semantics "x" ["*"] [⟨"a", "d", "p"⟩]).2.2.2.1
      (by decide)
  · rw [(registry_permission_semantics "x" ["b"] [⟨"a", "d", "p"⟩, ⟨"b", "d", "p"⟩]).2.2.2.2
      (by decide)]
    decide

/-- C10: after any sequence of `record_metrics` calls on a fresh registry,
every tool's metrics satisfy `execution_count = success_count + failure_count`,
and `total_duration_ms` is the sum of the durations recorded for that tool. -/
theorem record_metrics_counts_invariant (events : List MetricsEvent) (tool : String) :
    (run_metrics events tool).execution_count
        = (run_metrics events tool).success_count + (run_metrics events tool).failure_count
    ∧ (run_metrics events tool).total_duration_ms
        = ((events.filter (fun e => e.tool == tool)).map (fun e => e.duration_ms)).sum := by
  have hrw := run_metrics_eq_filtered events (fun _ => ToolMetrics.init) tool
  unfold run_metrics
  rw [hrw]
  have := fold_record_entry_inv (events.filter (fun e => e.tool == tool)) ToolMetrics.init rfl
  simpa [ToolMetrics.init] using this

/-! ## Claim theorem for output truncation -/

theorem truncFooter_pos (n : Nat) : 0 < (truncFooter n).length := by
  unfold truncFooter strBytes
  rw [String.data_append, String.data_append]
  simp

/-- C9: `truncate_output` is idempotent:
`truncate_output(truncate_output(s, n), n) = truncate_output(s, n)`. -/
theorem truncate_output_idempotent (s : List Nat) (n : Nat) :
    truncate_output (truncate_output s n) n = truncate_output s n := by
  rcases Decidable.em (s.length ≤ n) with h | h
  · simp [truncate_output, h]
  · have hlt : n < s.length := Nat.lt_of_not_le h
    have htake : (s.take n).length = n := by
      simp [List.length_take, Nat.min_eq_left (Nat.le_of_lt hlt)]
    have hout : truncate_output s n = s.take n ++ truncFooter n := by
      simp [truncate_output, h]
    rw [hout]
    have hlen : (s.take n ++ truncFooter n).length = n + (truncFooter n).length := by
      simp [List.length_append, htake]
    have hgt : ¬ (s.take n ++ truncFooter n).length ≤ n := by
      rw [hlen]
      have := truncFooter_pos n
      omega
    simp only [truncate_output, hgt, if_false]
    rw [List.take_left' htake]

/-! ## SSRF IP filter — `crates/tools/src/sandbox.rs`

`is_private_ip` is written against `std::net::{Ipv4Addr, Ipv6Addr}`; the std
predicates it calls are embedded below with their documented semantics
(octets and 16-bit segments as `Nat`). -/

/-- An IPv4 address as its four octets. -/
structure Ipv4 where
  o0 : Nat
  o1 : Nat
  o2 : Nat
  o3 : Nat
deriving DecidableEq

/-- An IPv6 address as its eight 16-bit segments. -/
structure Ipv6 where
  s0 : Nat
  s1 : Nat
  s2 : Nat
  s3 : Nat
  s4 : Nat
  s5 : Nat
  s6 : Nat
  s7 : Nat
deriving DecidableEq

/-- `std::net::IpAddr`. -/
inductive IpAddr where
  | V4 (v4 : Ipv4)
  | V6 (v6 : Ipv6)
deriving DecidableEq

/-- `Ipv4Addr::is_loopback` (127.0.0.0/8). -/
def Ipv4.is_loopback (v : Ipv4) : Bool :=
  v.o0 == 127

/-- `Ipv4Addr::is_private` (10/8, 172.16/12, 192.168/16). -/
def Ipv4.is_private (v : Ipv4) : Bool :=
  v.o0 == 10 || (v.o0 == 172 && decide (16 ≤ v.o1) && decide (v.o1 ≤ 31))
    || (v.o0 == 192 && v.o1 == 168)

/-- `Ipv4Addr::is_link_local` (169.254.0.0/16). -/
def Ipv4.is_link_local (v : Ipv4) : Bool :=
  v.o0 == 169 && v.o1 == 254

/-- `Ipv4Addr::is_broadcast` (255.255.255.255). -/
def Ipv4.is_broadcast (v : Ipv4) : Bool :=
  v.o0 == 255 && v.o1 == 255 && v.o2 == 255 && v.o3 == 255

/-- `Ipv4Addr::is_unspecified` (0.0.0.0). -/
def Ipv4.is_unspecified (v : Ipv4) : Bool :=
  v.o0 == 0 && v.o1 == 0 && v.o2 == 0 && v.o3 == 0

/-- `Ipv6Addr::is_loopback` (::1). -/
def Ipv6.is_loopback (v : Ipv6) : Bool :=
  v == ⟨0, 0, 0, 0, 0, 0, 0, 1⟩

/-- `Ipv6Addr::is_unspecified` (::). -/
def Ipv6.is_unspecified (v : Ipv6) : Bool :=
  v == ⟨0, 0, 0, 0, 0, 0, 0, 0⟩

/-- `is_private_ip` from `sandbox.rs`. -/
def is_private_ip : IpAddr → Bool
  | .V4 v4 =>
      v4.is_loopback || v4.is_private || v4.is_link_local || v4.is_broadcast
        || v4.is_unspecified
        || v4 == ⟨169, 254, 169, 254⟩
        || (v4.o0 == 100 && (v4.o1 &&& 0xC0) == 64)
  | .V6 v6 =>
      v6.is_loopback || v6.is_unspecified
        || ((v6.s0 &&& 0xfe00) == 0xfc00
            || v6.s0 == 0xfe80
            || v6 == ⟨0, 0, 0, 0, 0, 0xffff, 0x7f00, 1⟩)

/-- Membership in the IPv4 loopback range 127.0.0.0/8 (claim wording). -/
def Ipv4.in_loopback_range (v : Ipv4) : Prop :=
  v.o0 = 127

/-- Membership in an RFC 1918 private range (claim wording). -/
def Ipv4.in_rfc1918_range (v : Ipv4) : Prop :=
  v.o0 = 10 ∨ (v.o0 = 172 ∧ 16 ≤ v.o1 ∧ v.o1 ≤ 31) ∨ (v.o0 = 192 ∧ v.o1 = 168)

/-- Membership in the IPv4 link-local range 169.254.0.0/16 (claim wording). -/
def Ipv4.in_link_local_range (v : Ipv4) : Prop :=
  v.o0 = 169 ∧ v.o1 = 254

/-- Membership in the IPv6 ULA range fc00::/7 (claim wording). -/
def Ipv6.in_ula_range (v : Ipv6) : Prop :=
  v.s0 &&& 0xfe00 = 0xfc00

/-- Membership in the IPv6 link-local range fe80::/10 (claim wording): the top
ten bits are 1111111010. -/
def Ipv6.in_link_local_range (v : Ipv6) : Prop :=
  v.s0 &&& 0xffc0 = 0xfe80

/-- C4: the claim holds for every listed IPv4 range and for the IPv6 loopback
and ULA ranges, but fails on the IPv6 link-local range fe80::/10: the source
compares `segments[0]` to `0xfe80` exactly (fe80::/16), against its own
`fe80::/10` comment, so `fe81::1` — a link-local address — is not private. -/
theorem is_private_ip_link_local_gap :
    Ipv6.in_link_local_range ⟨0xfe81, 0, 0, 0, 0, 0, 0, 1⟩
    ∧ is_private_ip (.V6 ⟨0xfe81, 0, 0, 0, 0, 0, 0, 1⟩) = false := by
  constructor
  · unfold Ipv6.in_link_local_range
    decide
  · decide

/-! ## Webhook dedupe cache — `crates/server/src/gateway.rs`

`DedupeCache` holds `entries: HashMap<String, i64>` and
`order: VecDeque<(String, i64)>`. The map is modelled as an association list
without duplicate keys (lookup = first match, insert = remove-then-cons,
remove = erase first match — the `HashMap` operations under its no-duplicate
invariant); the deque front is the list head. -/

/-- `HashMap::get`. -/
def entriesGet : List (String × Int) → String → Option Int
  | [], _ => none
  | (k', v) :: rest, k => if k' = k then some v else entriesGet rest k

/-- `HashMap::remove`. -/
def entriesRemove : List (String × Int) → String → List (String × Int)
  | [], _ => []
  | (k', v) :: rest, k => if k' = k then rest else (k', v) :: entriesRemove rest k

/-- `HashMap::insert` (replaces any existing binding). -/
def entriesInsert (es : List (String × Int)) (k : String) (v : Int) : List (String × Int) :=
  (k, v) :: entriesRemove es k

/-- `DedupeCache` (the gateway also carries `runtime.dedupe_max_entries`,
passed here alongside). -/
structure DedupeCache where
  entries : List (String × Int)
  order : List (String × Int)
deriving DecidableEq

/-- The first loop of `dedupe_seen`: pop expired front entries
(`now - old_ts > ttl_secs`), removing the map binding only when its timestamp
matches the popped pair. -/
def evictExpired (now ttl : Int) :
    List (String × Int) → List (String × Int) → List (String × Int) × List (String × Int)
  | entries, [] => (entries, [])
  | entries, (k, ts) :: rest =>
      if now - ts > ttl then
        evictExpired now ttl
          (if entriesGet entries k == some ts then entriesRemove entries k else entries) rest
      else (entries, (k, ts) :: rest)

/-- The overflow loop of `dedupe_seen`: while the map is larger than
`max_entries`, pop the front pair and remove its binding when the timestamp
matches. -/
def evictOverflow (maxE : Nat) (entries : List (String × Int)) :
    List (String × Int) → List (String × Int) × List (String × Int)
  | [] => (entries, [])
  | (k, ts) :: rest =>
      if entries.length > maxE then
        evictOverflow maxE
          (if entriesGet entries k == some ts then entriesRemove entries k else entries) rest
      else (entries, (k, ts) :: rest)

/-- `dedupe_seen(state, key, ttl_secs)` at clock reading `now`
(`now_epoch_secs()`), returning the boolean result and the updated cache. -/
def dedupe_seen (dedupe_max_entries : Nat) (now ttl : Int) (key : String)
    (cache : DedupeCache) : Bool × DedupeCache :=
  let c1 := evictExpired now ttl cache.entries cache.order
  let hit := match entriesGet c1.1 key with
    | some ts => decide (now - ts ≤ ttl)
    | none => false
  if hit then (true, ⟨c1.1, c1.2⟩)
  else
    let e2 := entriesInsert c1.1 key now
    let o2 := c1.2 ++ [(key, now)]
    let max_entries := Nat.max dedupe_max_entries 128
    let c3 := evictOverflow max_entries e2 o2
    (false, ⟨c3.1, c3.2⟩)

/-! ### Association-list facts used for the dedupe cache -/

theorem get_insert_self (es : List (String × Int)) (k : String) (v : Int) :
    entriesGet (entriesInsert es k v) k = some v := by
  simp [entriesInsert, entriesGet]

theorem mem_remove {p : String × Int} {es : List (String × Int)} {k : String}
    (h : p ∈ entriesRemove es k) : p ∈ es := by
  induction es with
  | nil => simpa [entriesRemove] using h
  | cons q rest ih =>
    obtain ⟨k', v'⟩ := q
    by_cases hk : k' = k
    · simp only [entriesRemove, if_pos hk] at h
      exact List.mem_cons_of_mem _ h
    · simp only [entriesRemove, if_neg hk, List.mem_cons] at h
      rcases h with h | h
      · exact h ▸ List.mem_cons_self _ _
      · exact List.mem_cons_of_mem _ (ih h)

theorem remove_sublist (es : List (String × Int)) (k : String) :
    List.Sublist (entriesRemove es k) es := by
  induction es with
  | nil => exact List.Sublist.refl _
  | cons q rest ih =>
    obtain ⟨k', v'⟩ := q
    by_cases hk : k' = k
    · simp only [entriesRemove, if_pos hk]
      exact List.sublist_cons_self _ _
    · simp only [entriesRemove, if_neg hk]
      exact ih.cons₂ _

theorem get_remove_ne (es : List (String × Int)) (k k₀ : String) (h : k ≠ k₀) :
    entriesGet (entriesRemove es k₀) k = entriesGet es k := by
  induction es with
  | nil => rfl
  | cons q rest ih =>
    obtain ⟨k', v'⟩ := q
    by_cases hk : k' = k₀
    · have hk2 : ¬ k' = k := fun he => h (he.symm.trans hk)
      simp [entriesRemove, entriesGet, hk, hk2, Ne.symm h]
    · by_cases hk2 : k' = k
      · simp [entriesRemove, entriesGet, hk, hk2, h]
      · simp [entriesRemove, entriesGet, hk, hk2, h, ih]

theorem get_of_mem_nodup {es : List (String × Int)} {k : String} {v : Int}
    (hnd : (es.map Prod.fst).Nodup) (hm : (k, v) ∈ es) :
    entriesGet es k = some v := by
  induction es with
  | nil => cases hm
  | cons q rest ih =>
    obtain ⟨k', v'⟩ := q
    simp only [List.map_cons, List.nodup_cons] at hnd
    rcases List.mem_cons.mp hm with h | h
    · cases h
      simp [entriesGet]
    · by_cases hk : k' = k
      · subst hk
        exact absurd (List.mem_map.mpr ⟨(k', v), h, rfl⟩) hnd.1
      · simp only [entriesGet, if_neg hk]
        exact ih hnd.2 h

theorem not_mem_remove {es : List (String × Int)} {k : String}
    (hnd : (es.map Prod.fst).Nodup) (w : Int) : (k, w) ∉ entriesRemove es k := by
  induction es with
  | nil => simp [entriesRemove]
  | cons q rest ih =>
    obtain ⟨k', v'⟩ := q
    simp only [List.map_cons, List.nodup_cons] at hnd
    by_cases hk : k' = k
    · subst hk
      simp only [entriesRemove, if_pos rfl]
      intro hmem
      exact hnd.1 (List.mem_map.mpr ⟨(k', w), hmem, rfl⟩)
    · simp only [entriesRemove, if_neg hk, List.mem_cons]
      rintro (h | h)
      · exact hk (congrArg Prod.fst h).symm
      · exact ih hnd.2 h

theorem remove_nodup {es : List (String × Int)} (k : String)
    (hnd : (es.map Prod.fst).Nodup) : ((entriesRemove es k).map Prod.fst).Nodup :=
  hnd.sublist (List.Sublist.map Prod.fst (remove_sublist es k))

theorem insert_nodup {es : List (String × Int)} (k : String) (v : Int)
    (hnd : (es.map Prod.fst).Nodup) :
    ((entriesInsert es k v).map Prod.fst).Nodup := by
  simp only [entriesInsert, List.map_cons, List.nodup_cons]
  refine ⟨?_, remove_nodup k hnd⟩
  intro hmem
  obtain ⟨⟨k2, w⟩, hm, he⟩ := List.mem_map.mp hmem
  cases he
  exact not_mem_remove hnd w hm

/-! ### Eviction-loop lemmas -/

theorem evictExpired_preserves_get (now ttl : Int) (order : List (String × Int)) :
    ∀ (entries : List (String × Int)) (k : String) (v : Int),
      entriesGet entries k = some v → now - v ≤ ttl →
      entriesGet (evictExpired now ttl entries order).1 k = some v := by
  induction order with
  | nil => intro entries k v hget _; simpa [evictExpired] using hget
  | cons q rest ih =>
    intro entries k v hget hv
    obtain ⟨k₀, ts₀⟩ := q
    by_cases hexp : now - ts₀ > ttl
    · simp only [evictExpired, if_pos hexp]
      by_cases hkk : k₀ = k
      · have hne : ¬ (entriesGet entries k₀ == some ts₀) = true := by
          rw [hkk, hget]
          intro hb
          have : v = ts₀ := by simpa using hb
          omega
        rw [if_neg hne]
        exact ih entries k v hget hv
      · by_cases hmatch : (entriesGet entries k₀ == some ts₀) = true
        · rw [if_pos hmatch]
          refine ih _ k v ?_ hv
          rw [get_remove_ne _ _ _ (fun he => hkk he.symm)]
          exact hget
        · rw [if_neg hmatch]
          exact ih entries k v hget hv
    · simpa [evictExpired, if_neg hexp] using hget

theorem evictExpired_order_mem (now ttl : Int) (order : List (String × Int)) :
    ∀ (entries : List (String × Int)) (p : String × Int),
      p ∈ (evictExpired now ttl entries order).2 → p ∈ order := by
  induction order with
  | nil => intro entries p hp; simpa [evictExpired] using hp
  | cons q rest ih =>
    intro entries p hp
    obtain ⟨k₀, ts₀⟩ := q
    by_cases hexp : now - ts₀ > ttl
    · simp only [evictExpired, if_pos hexp] at hp
      exact List.mem_cons_of_mem _ (ih _ p hp)
    · simpa [evictExpired, if_neg hexp] using hp

theorem evictExpired_wf (now ttl : Int) (order : List (String × Int)) :
    ∀ (entries : List (String × Int)),
      (∀ p ∈ entries, p ∈ order) → (entries.map Prod.fst).Nodup →
      (∀ p ∈ (evictExpired now ttl entries order).1,
          p ∈ (evictExpired now ttl entries order).2)
        ∧ ((evictExpired now ttl entries order).1.map Prod.fst).Nodup := by
  induction order with
  | nil =>
    intro entries hwf hnd
    exact ⟨fun p hp => hwf p hp, by simpa [evictExpired] using hnd⟩
  | cons q rest ih =>
    intro entries hwf hnd
    obtain ⟨k₀, ts₀⟩ := q
    by_cases hexp : now - ts₀ > ttl
    · simp only [evictExpired, if_pos hexp]
      by_cases hmatch : (entriesGet entries k₀ == some ts₀) = true
      · rw [if_pos hmatch]
        refine ih _ ?_ (remove_nodup k₀ hnd)
        intro p hp
        have hpe : p ∈ entries := mem_remove hp
        rcases List.mem_cons.mp (hwf p hpe) with h | h
        · exfalso
          rw [h] at hp
          exact not_mem_remove hnd ts₀ hp
        · exact h
      · rw [if_neg hmatch]
        refine ih _ ?_ hnd
        intro p hp
        rcases List.mem_cons.mp (hwf p hp) with h | h
        · exfalso
          rw [h] at hp
          exact hmatch (by rw [get_of_mem_nodup hnd hp]; simp)
        · exact h
    · simp only [evictExpired, if_neg hexp]
      exact ⟨fun p hp => hwf p hp, hnd⟩

theorem evictOverflow_preserves_back (maxE : Nat) (hmax : 1 ≤ maxE) (k : String) (v : Int) :
    ∀ (rest entries : List (String × Int)),
      entriesGet entries k = some v →
      (∀ p ∈ entries, p ∈ rest ++ [(k, v)]) →
      (entries.map Prod.fst).Nodup →
      (∀ ts : Int, (k, ts) ∈ rest → ts < v) →
      entriesGet (evictOverflow maxE entries (rest ++ [(k, v)])).1 k = some v := by
  intro rest
  induction rest with
  | nil =>
    intro entries hget hwf hnd hfresh
    by_cases hlen : entries.length > maxE
    · exfalso
      have hall : ∀ p ∈ entries, p = (k, v) := by
        intro p hp
        simpa using hwf p hp
      have hrep : entries = List.replicate entries.length (k, v) :=
        List.eq_replicate_of_mem hall
      have hnd2 : (List.replicate entries.length (k, v)).map Prod.fst |>.Nodup := by
        rw [← hrep]; exact hnd
      rw [List.map_replicate, List.nodup_replicate] at hnd2
      omega
    · simp only [List.nil_append, evictOverflow, if_neg hlen]
      exact hget
  | cons q rest' ih =>
    intro entries hget hwf hnd hfresh
    obtain ⟨k₀, ts₀⟩ := q
    by_cases hlen : entries.length > maxE
    · simp only [List.cons_append, evictOverflow, if_pos hlen]
      by_cases hmatch : (entriesGet entries k₀ == some ts₀) = true
      · rw [if_pos hmatch]
        have hkk : k₀ ≠ k := by
          intro he
          have hg : entriesGet entries k₀ = some ts₀ := by simpa using hmatch
          rw [he, hget] at hg
          have hts : ts₀ = v := by
            have := Option.some.injEq .. ▸ hg
            simpa using hg.symm
          have hlt : ts₀ < v := hfresh ts₀ (by rw [he]; exact List.mem_cons_self _ _)
          omega
        apply ih
        · rw [get_remove_ne _ _ _ (fun he => hkk he.symm)]
          exact hget
        · intro p hp
          have hpe : p ∈ entries := mem_remove hp
          rcases List.mem_cons.mp (hwf p hpe) with h | h
          · exfalso
            rw [h] at hp
            exact not_mem_remove hnd ts₀ hp
          · exact h
        · exact remove_nodup k₀ hnd
        · intro ts hts
          exact hfresh ts (List.mem_cons_of_mem _ hts)
      · rw [if_neg hmatch]
        apply ih
        · exact hget
        · intro p hp
          rcases List.mem_cons.mp (hwf p hp) with h | h
          · exfalso
            rw [h] at hp
            exact hmatch (by rw [get_of_mem_nodup hnd hp]; simp)
          · exact h
        · exact hnd
        · intro ts hts
          exact hfresh ts (List.mem_cons_of_mem _ hts)
    · simp only [List.cons_append, evictOverflow, if_neg hlen]
      exact hget

/-! ### Claim theorems for the dedupe cache -/

/-- C6 counterexample: three calls with key `"k"`, `ttl = 10`, at clock
readings 0, 5 and 8 on an empty cache. The pair (C₁ = call at 5,
C₂ = call at 8) is two calls with the same key within ttl of each other, yet
C₁ returned `true` (it was itself a repeat of the call at 0), refuting the
claim's assertion that C₁ returned false. -/
theorem dedupe_seen_claim_counterexample :
    ((8 : Int) - 5 ≤ 10)
    ∧ (dedupe_seen 2048 5 10 "k" (dedupe_seen 2048 0 10 "k" ⟨[], []⟩).2).1 = true
    ∧ (dedupe_seen 2048 8 10 "k"
        (dedupe_seen 2048 5 10 "k" (dedupe_seen 2048 0 10 "k" ⟨[], []⟩).2).2).1 = true := by
  refine ⟨by norm_num, ?_, ?_⟩ <;> rfl

/-- C6 (amended): for two back-to-back `dedupe_seen` calls with the same key
and ttl — C₁ at clock `t₁` returning `false`, C₂ at clock `t₂` with
`t₁ ≤ t₂` and `t₂ - t₁ ≤ ttl`, on a well-formed cache (map entries listed in
the FIFO order, no duplicate map keys, all cached pairs for the key strictly
older than `t₁`) — C₂ returns `true`. -/
theorem dedupe_seen_repeat_within_ttl (maxCfg : Nat) (t₁ t₂ ttl : Int) (k : String)
    (s : DedupeCache)
    (hwf : ∀ p ∈ s.entries, p ∈ s.order)
    (hnd : (s.entries.map Prod.fst).Nodup)
    (hfresh : ∀ ts : Int, (k, ts) ∈ s.order → ts < t₁)
    (h12 : t₁ ≤ t₂) (hwin : t₂ - t₁ ≤ ttl)
    (hfalse : (dedupe_seen maxCfg t₁ ttl k s).1 = false) :
    (dedupe_seen maxCfg t₂ ttl k (dedupe_seen maxCfg t₁ ttl k s).2).1 = true := by
  by_cases hhit : (match entriesGet (evictExpired t₁ ttl s.entries s.order).1 k with
      | some ts => decide (t₁ - ts ≤ ttl)
      | none => false) = true
  · exfalso
    simp only [dedupe_seen] at hfalse
    rw [if_pos hhit] at hfalse
    simp at hfalse
  · have hstate : (dedupe_seen maxCfg t₁ ttl k s).2
        = ⟨(evictOverflow (Nat.max maxCfg 128)
              (entriesInsert (evictExpired t₁ ttl s.entries s.order).1 k t₁)
              ((evictExpired t₁ ttl s.entries s.order).2 ++ [(k, t₁)])).1,
           (evictOverflow (Nat.max maxCfg 128)
              (entriesInsert (evictExpired t₁ ttl s.entries s.order).1 k t₁)
              ((evictExpired t₁ ttl s.entries s.order).2 ++ [(k, t₁)])).2⟩ := by
      simp only [dedupe_seen]
      rw [if_neg hhit]
    obtain ⟨hwf1, hnd1⟩ := evictExpired_wf t₁ ttl s.order s.entries hwf hnd
    have hfresh1 : ∀ ts : Int, (k, ts) ∈ (evictExpired t₁ ttl s.entries s.order).2 → ts < t₁ :=
      fun ts hts => hfresh ts (evictExpired_order_mem t₁ ttl s.order s.entries (k, ts) hts)
    have hget2 : entriesGet
        (entriesInsert (evictExpired t₁ ttl s.entries s.order).1 k t₁) k = some t₁ :=
      get_insert_self _ _ _
    have hnd2 : ((entriesInsert (evictExpired t₁ ttl s.entries s.order).1 k t₁).map
        Prod.fst).Nodup := insert_nodup k t₁ hnd1
    have hwf2 : ∀ p ∈ entriesInsert (evictExpired t₁ ttl s.entries s.order).1 k t₁,
        p ∈ (evictExpired t₁ ttl s.entries s.order).2 ++ [(k, t₁)] := by
      intro p hp
      rcases List.mem_cons.mp hp with h | h
      · rw [h]
        exact List.mem_append_right _ (List.mem_singleton.mpr rfl)
      · exact List.mem_append_left _ (hwf1 p (mem_remove h))
    have hmax : 1 ≤ Nat.max maxCfg 128 :=
      le_trans (by norm_num) (Nat.le_max_right maxCfg 128)
    have hover : entriesGet
        ((evictOverflow (Nat.max maxCfg 128)
            (entriesInsert (evictExpired t₁ ttl s.entries s.order).1 k t₁)
            ((evictExpired t₁ ttl s.entries s.order).2 ++ [(k, t₁)])).1) k = some t₁ :=
      evictOverflow_preserves_back (Nat.max maxCfg 128) hmax k t₁
        (evictExpired t₁ ttl s.entries s.order).2
        (entriesInsert (evictExpired t₁ ttl s.entries s.order).1 k t₁)
        hget2 hwf2 hnd2 hfresh1
    rw [hstate]
    have hget3 : entriesGet
        (evictExpired t₂ ttl
          ((evictOverflow (Nat.max maxCfg 128)
              (entriesInsert (evictExpired t₁ ttl s.entries s.order).1 k t₁)
              ((evictExpired t₁ ttl s.entries s.order).2 ++ [(k, t₁)])).1)
          ((evictOverflow (Nat.max maxCfg 128)
              (entriesInsert (evictExpired t₁ ttl s.entries s.order).1 k t₁)
              ((evictExpired t₁ ttl s.entries s.order).2 ++ [(k, t₁)])).2)).1 k = some t₁ :=
      evictExpired_preserves_get t₂ ttl _ _ k t₁ hover (by omega)
    simp only [dedupe_seen, hget3]
    rw [if_pos (by exact decide_eq_true hwin)]

/-- C6 witness: an empty cache, a first call at clock 100 (returning false)
and a repeat at clock 105 with ttl 600 returning true. -/
theorem dedupe_seen_repeat_within_ttl_witness :
    (dedupe_seen 2048 105 600 "k" (dedupe_seen 2048 100 600 "k" ⟨[], []⟩).2).1 = true :=
  dedupe_seen_repeat_within_ttl 2048 100 105 600 "k" ⟨[], []⟩
    (by intro p hp; cases hp) (by simp) (by intro ts hts; cases hts)
    (by norm_num) (by norm_num) rfl

/-! ## Agent loop — `crates/agent/src/agent_loop.rs`

The file as shipped omits one closing brace: the `if let Some(usage) = …`
block opened at line 165 is never closed before the loop body continues, and
the file's braces are unbalanced by one. The indentation (the statements from
line 185 on return to the loop's own indent level) places the missing `}`
directly after the `llm_completion` audit call, which is the structure
embedded here: the usage block guards only the token-usage log/audit, and
everything after it belongs to the loop body.

The LLM provider is abstracted as an oracle from the iteration number to an
outcome (`call_llm_with_retry` returning `Err` after exhausting retries, or a
response). JSON argument parsing and the registry's `get` are abstracted as
oracles as well; the `record_metrics` call in the loop is the function
embedded in the registry section above and is not repeated in the loop state,
which tracks the conversation messages and the audit log. -/

/-- `pocketclaw_core::types::Role`. -/
inductive Role where
  | system
  | user
  | assistant
  | tool
deriving DecidableEq

/-- `pocketclaw_core::types::Message` (the fields the loop writes). -/
structure Msg where
  source : String
  role : Role
  content : String
  metadata : List (String × String)
deriving DecidableEq

/-- A tool call emitted by the LLM. -/
structure ToolCall where
  id : String
  name : String
  arguments : String
deriving DecidableEq

/-- `log_audit_internal` records, restricted to the fields the claims are
about. -/
inductive AuditEvent where
  | llm_completion (iteration : Nat)
  | security_violation (tool : String)
  | tool_execution (tool : String) (args : String) (success : Bool)
deriving DecidableEq

/-- The conversation/audit state threaded through the tool-call loop. -/
structure LoopState where
  messages : List Msg
  audits : List AuditEvent
deriving DecidableEq

/-- Rust `str::starts_with` (character-level; the prefixes involved are
ASCII, so this coincides with the byte-level test). -/
def str_starts_with (s pre : String) : Bool :=
  List.isPrefixOf pre.data s.data

/-- The body of `for tool_call in response.tool_calls` (lines 195–268):
permission check, execution, audit, and the appended tool-role message.
`parse` is `serde_json::from_str`, `tools` is `ToolRegistry::get`. -/
def handle_tool_call {J : Type} (parse : String → Except String J)
    (tools : String → Option (J → Except String String))
    (allowed_tools : List String) (st : LoopState) (tc : ToolCall) : LoopState :=
  if !is_tool_allowed tc.name allowed_tools then
    { messages := st.messages
        ++ [⟨"tool", Role.tool,
             "Error: Tool '" ++ tc.name ++ "' is not authorized by any active skill.", []⟩]
      audits := st.audits ++ [.security_violation tc.name] }
  else
    let result :=
      match tools tc.name with
      | some tool =>
          -- the source re-declares `let allowed_tools: Vec<String> = Vec::new();`
          -- at line 225, shadowing the real allowed list with an empty one
          let allowed_tools : List String := []
          if !is_tool_allowed tc.name allowed_tools then
            "Permission denied: tool '" ++ tc.name ++ "' is not allowed"
          else
            match parse tc.arguments with
            | .ok args =>
                match tool args with
                | .ok res => res
                | .error e => "Error executing tool: " ++ e
            | .error e => "Error parsing arguments: " ++ e
      | none => "Tool not found: " ++ tc.name
    { messages := st.messages
        ++ [⟨"agent", Role.tool, result, [("tool_call_id", tc.id)]⟩]
      audits := st.audits
        ++ [.tool_execution tc.name tc.arguments (!str_starts_with result "Error")] }

/-- The whole `for tool_call in response.tool_calls` loop. -/
def process_tool_calls {J : Type} (parse : String → Except String J)
    (tools : String → Option (J → Except String String))
    (allowed_tools : List String) (st : LoopState) (tcs : List ToolCall) : LoopState :=
  tcs.foldl (handle_tool_call parse tools allowed_tools) st

/-- `MAX_ITERATIONS` (line 15). -/
def MAX_ITERATIONS : Nat := 10

/-- Token usage reported by the provider. -/
structure Usage where
  input_tokens : Nat
  output_tokens : Nat
deriving DecidableEq

/-- `pocketclaw_providers::GenerationResponse` (the fields the loop reads). -/
structure GenerationResponse where
  content : String
  tool_calls : List ToolCall
  usage : Option Usage
deriving DecidableEq

/-- The warning published when the loop exhausts
(`format!("⚠️ I reached … ({}). …", MAX_ITERATIONS)`, lines 299–305). -/
def max_iterations_message : String :=
  "⚠️ I reached the maximum number of processing steps ("
    ++ toString MAX_ITERATIONS
    ++ "). My last response may be incomplete. Please try rephrasing your request."

/-- How one `process_message` invocation ends. -/
inductive LoopExit where
  | provider_error (e : String)
  | final (content : String)
  | max_iterations
deriving DecidableEq

/-- The `while iteration < MAX_ITERATIONS` skeleton of `process_message`
(lines 147–305): each iteration increments the counter, consults the LLM
oracle, returns on provider error, loops when the response carries tool
calls, and otherwise is the final response; falling out of the loop is the
max-iterations exit. -/
def process_from (llm : Nat → Except String GenerationResponse)
    (iteration : Nat) : LoopExit :=
  if h : iteration < MAX_ITERATIONS then
    match llm (iteration + 1) with
    | .error e => .provider_error e
    | .ok resp =>
        if resp.tool_calls.isEmpty then .final resp.content
        else process_from llm (iteration + 1)
  else .max_iterations
termination_by MAX_ITERATIONS - iteration
decreasing_by omega

/-- The user-visible message `process_message` publishes for each exit
(`send_error` at lines 156–159 and 299–305, `Event::OutboundMessage` at
line 286). -/
def published_outbound (llm : Nat → Except String GenerationResponse) : String :=
  match process_from llm 0 with
  | .provider_error e =>
      "⚠️ I encountered an error communicating with the AI provider: " ++ e
  | .final c => c
  | .max_iterations => max_iterations_message

theorem process_from_max_iff (llm : Nat → Except String GenerationResponse) :
    ∀ (k j : Nat), j + k = MAX_ITERATIONS →
      (process_from llm j = .max_iterations
        ↔ ∀ i, j < i → i ≤ MAX_ITERATIONS →
            ∃ r, llm i = .ok r ∧ r.tool_calls ≠ []) := by
  intro k
  induction k with
  | zero =>
    intro j hj
    constructor
    · intro _ i h1 h2
      omega
    · intro _
      rw [process_from, dif_neg (by omega)]
  | succ k ih =>
    intro j hj
    have hlt : j < MAX_ITERATIONS := by omega
    cases hllm : llm (j + 1) with
    | error e =>
      have hred : process_from llm j = .provider_error e := by
        rw [process_from, dif_pos hlt, hllm]
      rw [hred]
      constructor
      · intro hcon
        cases hcon
      · intro hall
        obtain ⟨r, hr, _⟩ := hall (j + 1) (by omega) (by omega)
        rw [hllm] at hr
        cases hr
    | ok r =>
      have hred : process_from llm j
          = if r.tool_calls.isEmpty then .final r.content
            else process_from llm (j + 1) := by
        rw [process_from, dif_pos hlt, hllm]
      rw [hred]
      by_cases hemp : r.tool_calls.isEmpty = true
      · rw [if_pos hemp]
        constructor
        · intro hcon
          cases hcon
        · intro hall
          obtain ⟨r', hr', hne⟩ := hall (j + 1) (by omega) (by omega)
          rw [hllm] at hr'
          cases hr'
          exact (hne (List.isEmpty_iff.mp hemp)).elim
      · rw [if_neg hemp]
        rw [ih (j + 1) (by omega)]
        constructor
        · intro hall i h1 h2
          rcases Nat.lt_or_ge (j + 1) i with hgt | hle
          · exact hall i hgt h2
          · have hi : i = j + 1 := by omega
            subst hi
            refine ⟨r, hllm, fun hnil => hemp ?_⟩
            rw [hnil]
            rfl
        · intro hall i h1 h2
          exact hall i (by omega) h2

/-- C7: the loop publishes the exact max-iterations warning precisely when
all `MAX_ITERATIONS = 10` iterations consult the LLM and every response
carries tool calls (no terminal, tool-call-free response and no provider
error); the published text matches the claim's literal. -/
theorem max_iterations_warning_exactly (llm : Nat → Except String GenerationResponse) :
    (max_iterations_message
        = "⚠️ I reached the maximum number of processing steps (10). My last response may be incomplete. Please try rephrasing your request.")
    ∧ (process_from llm 0 = .max_iterations
        ↔ ∀ i, 1 ≤ i → i ≤ MAX_ITERATIONS →
            ∃ r, llm i = .ok r ∧ r.tool_calls ≠ [])
    ∧ (process_from llm 0 = .max_iterations →
        published_outbound llm = max_iterations_message)
    ∧ ((∃ e, process_from llm 0 = .provider_error e) ∨
        (∃ c, process_from llm 0 = .final c) →
        process_from llm 0 ≠ .max_iterations) := by
  refine ⟨by decide, ?_, ?_, ?_⟩
  · exact process_from_max_iff llm MAX_ITERATIONS 0 (by omega)
  · intro h
    simp only [published_outbound, h]
  · rintro (⟨e, he⟩ | ⟨c, hc⟩) hcon
    · rw [hcon] at he
      cases he
    · rw [hcon] at hc
      cases hc

/-- C7 witness: an LLM that always answers with a tool call drives the loop
to the max-iterations warning. -/
theorem max_iterations_warning_exactly_witness :
    published_outbound (fun _ => .ok ⟨"r", [⟨"1", "t", "a"⟩], none⟩)
      = max_iterations_message := by
  have h := max_iterations_warning_exactly (fun _ => .ok ⟨"r", [⟨"1", "t", "a"⟩], none⟩)
  exact h.2.2.1 (h.2.1.mpr (fun i _ _ => ⟨⟨"r", [⟨"1", "t", "a"⟩], none⟩, rfl, by decide⟩))

/-! ### Claim theorems for the tool-call loop -/

/-- C2: a tool call whose name the allowed list does not permit is not
executed — the step is independent of the parser and registry oracles — and
the loop appends exactly the unauthorized-tool error as a tool-role message,
records a `security_violation` audit, and continues with the remaining
calls from that state. -/
theorem blocked_tool_call_behavior {J : Type} (parse : String → Except String J)
    (tools : String → Option (J → Except String String)) (allowed_tools : List String)
    (st : LoopState) (tc : ToolCall) (rest : List ToolCall)
    (hblocked : is_tool_allowed tc.name allowed_tools = false) :
    process_tool_calls parse tools allowed_tools st (tc :: rest)
      = process_tool_calls parse tools allowed_tools
          { messages := st.messages
              ++ [⟨"tool", Role.tool,
                   "Error: Tool '" ++ tc.name
                     ++ "' is not authorized by any active skill.", []⟩]
            audits := st.audits ++ [.security_violation tc.name] } rest := by
  simp only [process_tool_calls, List.foldl_cons, handle_tool_call, hblocked,
    Bool.not_false, if_true]

/-- C2 witness: a blocked `read_file` call with an empty allowed list. -/
theorem blocked_tool_call_behavior_witness :
    process_tool_calls (J := String) Except.ok (fun _ => none) [] ⟨[], []⟩
        [⟨"call_1", "read_file", "a"⟩]
      = ⟨[⟨"tool", Role.tool,
           "Error: Tool 'read_file' is not authorized by any active skill.", []⟩],
         [.security_violation "read_file"]⟩ := by
  rw [blocked_tool_call_behavior Except.ok (fun _ => none) [] ⟨[], []⟩
    ⟨"call_1", "read_file", "a"⟩ [] (by decide)]
  rfl

/-- The general form of the C1 divergence: for every allowed and registered
tool call, the shadowed empty `allowed_tools` vector inside the execution
branch makes the inner permission guard fail, so the tool's `execute` is
never invoked (the outcome is independent of the parser and of the tool's
behaviour) and the appended tool message carries the literal
permission-denied text. -/
theorem allowed_tool_call_never_executes {J : Type} (parse : String → Except String J)
    (tools : String → Option (J → Except String String)) (allowed_tools : List String)
    (st : LoopState) (tc : ToolCall)
    (hallowed : is_tool_allowed tc.name allowed_tools = true)
    (hreg : (tools tc.name).isSome = true) :
    handle_tool_call parse tools allowed_tools st tc
      = { messages := st.messages
            ++ [⟨"agent", Role.tool,
                 "Permission denied: tool '" ++ tc.name ++ "' is not allowed",
                 [("tool_call_id", tc.id)]⟩]
          audits := st.audits
            ++ [.tool_execution tc.name tc.arguments
                  (!str_starts_with ("Permission denied: tool '" ++ tc.name
                      ++ "' is not allowed") "Error")] } := by
  obtain ⟨f, hf⟩ := Option.isSome_iff_exists.mp hreg
  unfold handle_tool_call
  rw [hallowed, hf]
  rfl

/-- C1 (code bug): with `read_file` allowed and registered with an `execute`
returning the file contents, the loop appends the permission-denied message —
`execute` is never reached — where the claim (and the spec's own walkthrough)
expects a tool message carrying the file contents with
`tool_call_id = "call_1"`. -/
theorem allowed_tool_call_denied_on_failing_input :
    handle_tool_call (J := String) Except.ok
        (fun n => if n = "read_file" then some (fun _ => .ok "file contents") else none)
        ["read_file"] ⟨[], []⟩ ⟨"call_1", "read_file", "a"⟩
      = ⟨[⟨"agent", Role.tool, "Permission denied: tool 'read_file' is not allowed",
           [("tool_call_id", "call_1")]⟩],
         [.tool_execution "read_file" "a" true]⟩ := by
  decide

/-! ## Summarization cadence — `SessionManager` contract

`agent_loop.rs` calls `self.sessions.should_summarize(key, history.len())`,
`mark_summarized(key)` and `auto_trim_history(key, 10)`
(`maybe_summarize_and_trim`, lines 308–355), but the `SessionManager` in
`crates/agent/src/session.rs` does not define these methods; their bodies are
not among the sources. -/

/-- `HISTORY_TRIM_THRESHOLD` (`agent_loop.rs`, line 19). -/
def HISTORY_TRIM_THRESHOLD : Nat := 30

/-- Modelled from the spec: `SessionManager::should_summarize(key,
history_len)`, absent from the sources (only its call site exists): "returns
true iff `history_len ≥ 30` and (no prior summarization recorded OR ≥ 300 s
since the last)". The in-memory last-summarized map is a function from key to
the recorded epoch second. -/
def should_summarize (now : Int) (last_summarized : String → Option Int)
    (key : String) (history_len : Nat) : Bool :=
  decide (HISTORY_TRIM_THRESHOLD ≤ history_len)
    && match last_summarized key with
       | none => true
       | some t => decide (300 ≤ now - t)

/-- Modelled from the spec: `SessionManager::mark_summarized(key)`, absent
from the sources: "records now" for the key. -/
def mark_summarized (now : Int) (last_summarized : String → Option Int)
    (key : String) : String → Option Int :=
  fun k => if k = key then some now else last_summarized k

/-- C8: `should_summarize(key, history_len)` is true iff `history_len ≥ 30`
and either no prior summarization is recorded for the key or at least 300
seconds have elapsed since it; `mark_summarized(key)` records the current
time for the key (and leaves other keys unchanged). -/
theorem should_summarize_contract (now : Int) (last : String → Option Int)
    (key other : String) (history_len : Nat) :
    (should_summarize now last key history_len = true
      ↔ 30 ≤ history_len
        ∧ (last key = none ∨ ∃ t, last key = some t ∧ 300 ≤ now - t))
    ∧ mark_summarized now last key key = some now
    ∧ (other ≠ key → mark_summarized now last key other = last other) := by
  refine ⟨?_, by simp [mark_summarized], fun h => by simp [mark_summarized, h]⟩
  unfold should_summarize HISTORY_TRIM_THRESHOLD
  cases hl : last key with
  | none => simp
  | some t => simp

/-- C8 witness. -/
theorem should_summarize_contract_witness :
    should_summarize 1000 (fun _ => none) "s" 30 = true
    ∧ should_summarize 1000 (fun _ => some 800) "s" 30 = false
    ∧ mark_summarized 1000 (fun _ => none) "s" "t" = none := by
  refine ⟨?_, ?_, ?_⟩
  · exact (should_summarize_contract 1000 (fun _ => none) "s" "t" 30).1.mpr
      ⟨by norm_num, Or.inl rfl⟩
  · have hiff := (should_summarize_contract 1000 (fun _ => some 800) "s" "t" 30).1
    by_contra hcon
    rw [Bool.not_eq_false] at hcon
    rcases (hiff.mp hcon).2 with h2 | ⟨t, ht, hle⟩
    · cases h2
    · cases ht
      omega
  · exact (should_summarize_contract 1000 (fun _ => none) "s" "t" 30).2.2 (by decide)

/-! ## Path sandbox — `crates/tools/src/sandbox.rs` (`validate_path`)

Paths are lists of components below the filesystem root. The filesystem is an
oracle: `pathExists` is `Path::exists`, `canon` is `Path::canonicalize`
(resolving symlinks and `..`, failing with `none`), and `isSymlink` is the
`symlink_metadata().file_type().is_symlink()` test that only selects which
error message is produced (the metadata call itself is modelled as total —
its failure branch is another error return, irrelevant to `Ok` results).
`Path::file_name` is the last component and `Path::pop` drops it (`file_name`
of the root is `None`, which is what stops the ancestor walk). -/

/-- Filesystem oracle for `validate_path`. -/
structure FS where
  pathExists : List String → Bool
  canon : List String → Option (List String)
  isSymlink : List String → Bool

/-- The `requested: &str` argument: absolute, or relative to the workspace. -/
structure RequestedPath where
  is_absolute : Bool
  comps : List String

/-- Lines 53–57: `workspace.join(requested)` unless the request is absolute. -/
def absolute_of (workspace : List String) (req : RequestedPath) : List String :=
  if req.is_absolute then req.comps else workspace ++ req.comps

/-- Lines 94–113, recursion measure: each pass strips the last component, so
`anc.length + 1` passes always reach either an existing ancestor or the
empty path, whose `file_name` is `None`; the fuel-exhaustion arm of
`walk_up_go` is unreachable from `walk_up`. -/
def walk_up_go (fs : FS) : Nat → List String → List String →
    Except String (List String × List String)
  | 0, _, _ => .error "Invalid path: cannot resolve ancestry"
  | fuel + 1, anc, remaining =>
      if fs.pathExists anc then .ok (anc, remaining)
      else
        match anc.getLast? with
        | none => .error "Invalid path: cannot resolve ancestry"
        | some fn => walk_up_go fs fuel anc.dropLast (remaining ++ [fn])

/-- Lines 94–113: walk up to the first existing ancestor, collecting the
stripped file names (child first). -/
def walk_up (fs : FS) (anc : List String) (remaining : List String) :
    Except String (List String × List String) :=
  walk_up_go fs (anc.length + 1) anc remaining

/-- Lines 129–138: rebuild the result from the canonical ancestor, appending
the remaining components parent-first and rejecting `..`. -/
def rebuild (acc : List String) : List String → Except String (List String)
  | [] => .ok acc
  | part :: rest =>
      if part = ".." then .error "Path traversal ('..') is not allowed"
      else rebuild (acc ++ [part]) rest

/-- `validate_path` (lines 49–141). -/
def validate_path (fs : FS) (workspace : List String) (req : RequestedPath) :
    Except String (List String) :=
  match fs.canon workspace with
  | none => .error "Failed to resolve workspace"
  | some workspace_canonical =>
    if fs.pathExists (absolute_of workspace req) then
      match fs.canon (absolute_of workspace req) with
      | none => .error "Failed to resolve path"
      | some resolved =>
        if !List.isPrefixOf workspace_canonical resolved then
          if fs.isSymlink (absolute_of workspace req) then
            .error "Access denied: symlink points outside workspace"
          else
            .error "Access denied: path is outside workspace"
        else .ok resolved
    else
      match walk_up fs (absolute_of workspace req) [] with
      | .error e => .error e
      | .ok (anc, remaining) =>
        match fs.canon anc with
        | none => .error "Failed to resolve ancestor"
        | some ancestor_canonical =>
          if !List.isPrefixOf workspace_canonical ancestor_canonical then
            .error "Access denied: path is outside workspace"
          else rebuild ancestor_canonical remaining.reverse

/-! ### Lemmas for `validate_path` -/

theorem isPrefixOf_append (l₁ l₂ l₃ : List String)
    (h : List.isPrefixOf l₁ l₂ = true) : List.isPrefixOf l₁ (l₂ ++ l₃) = true := by
  induction l₁ generalizing l₂ with
  | nil => exact List.isPrefixOf_nil_left
  | cons a as ih =>
    cases l₂ with
    | nil =>
      rw [List.isPrefixOf_cons_nil] at h
      cases h
    | cons b bs =>
      rw [List.isPrefixOf_cons₂, Bool.and_eq_true] at h
      rw [List.cons_append, List.isPrefixOf_cons₂, Bool.and_eq_true]
      exact ⟨h.1, ih bs h.2⟩

theorem rebuild_ok (parts : List String) :
    ∀ (acc r : List String), rebuild acc parts = .ok r →
      r = acc ++ parts ∧ ".." ∉ parts := by
  induction parts with
  | nil =>
    intro acc r h
    cases h
    simp
  | cons part rest ih =>
    intro acc r h
    by_cases hdd : part = ".."
    · rw [rebuild, if_pos hdd] at h
      cases h
    · rw [rebuild, if_neg hdd] at h
      obtain ⟨h1, h2⟩ := ih (acc ++ [part]) r h
      constructor
      · rw [h1, List.append_assoc, List.singleton_append]
      · simp only [List.mem_cons, not_or]
        exact ⟨fun he => hdd he.symm, h2⟩

theorem rebuild_rejects_dotdot (parts : List String) :
    ∀ (acc : List String), ".." ∈ parts → ∃ e, rebuild acc parts = .error e := by
  induction parts with
  | nil =>
    intro acc h
    cases h
  | cons part rest ih =>
    intro acc h
    by_cases hdd : part = ".."
    · exact ⟨_, by rw [rebuild, if_pos hdd]⟩
    · rcases List.mem_cons.mp h with he | he
      · exact absurd he.symm hdd
      · obtain ⟨e, hee⟩ := ih (acc ++ [part]) he
        exact ⟨e, by rw [rebuild, if_neg hdd]; exact hee⟩

/-- C3: whenever `validate_path` returns `Ok(p)`, the workspace canonicalized
successfully and `p` starts with it; for an existing target `p` is the
target's canonicalization; for a non-existing target `p` is the canonical
first existing ancestor — itself verified to lie inside the workspace — with
the remaining non-existent components appended, none of which is `..` (and
the rebuild errors out on any `..` component). -/
theorem validate_path_confined (fs : FS) (workspace : List String)
    (req : RequestedPath) (p : List String)
    (hok : validate_path fs workspace req = .ok p) :
    (∃ wsc, fs.canon workspace = some wsc ∧ List.isPrefixOf wsc p = true
      ∧ ((fs.pathExists (absolute_of workspace req) = true
            ∧ fs.canon (absolute_of workspace req) = some p)
        ∨ (¬ fs.pathExists (absolute_of workspace req) = true
            ∧ ∃ anc rem ancC,
                walk_up fs (absolute_of workspace req) [] = .ok (anc, rem)
                ∧ fs.canon anc = some ancC
                ∧ List.isPrefixOf wsc ancC = true
                ∧ ".." ∉ rem.reverse
                ∧ p = ancC ++ rem.reverse)))
    ∧ (∀ acc parts, ".." ∈ parts → ∃ e, rebuild acc parts = .error e) := by
  refine ⟨?_, fun acc parts h => rebuild_rejects_dotdot parts acc h⟩
  unfold validate_path at hok
  split at hok
  next => cases hok
  next wsc hwc =>
    refine ⟨wsc, hwc, ?_⟩
    split at hok
    next hex =>
      split at hok
      next => cases hok
      next resolved hres =>
        split at hok
        next hnpre =>
          split at hok <;> cases hok
        next hnpre =>
          cases hok
          have hpre : List.isPrefixOf wsc p = true := by
            revert hnpre
            cases List.isPrefixOf wsc p <;> simp
          exact ⟨hpre, Or.inl ⟨hex, hres⟩⟩
    next hex =>
      split at hok
      next e hwalk => cases hok
      next anc remaining hwalk =>
        split at hok
        next => cases hok
        next ancC hanc =>
          split at hok
          next hnpre => cases hok
          next hnpre =>
            obtain ⟨hp, hdd⟩ := rebuild_ok remaining.reverse ancC p hok
            have hpre : List.isPrefixOf wsc ancC = true := by
              revert hnpre
              cases List.isPrefixOf wsc ancC <;> simp
            refine ⟨?_, Or.inr ⟨hex, anc, remaining, ancC, hwalk, hanc, hpre, hdd, hp⟩⟩
            rw [hp]
            exact isPrefixOf_append wsc ancC remaining.reverse hpre

/-- A tiny filesystem for the C3 witness: only the directory `/ws` exists and
canonicalizes to itself. -/
def sample_fs : FS :=
  { pathExists := fun l => decide (l = ["ws"])
    canon := fun l => if l = ["ws"] then some ["ws"] else none
    isSymlink := fun _ => false }

/-- C3 witness: validating the non-existing relative path `a/b` inside `/ws`
succeeds and the proven confinement facts hold for it. -/
theorem validate_path_confined_witness :
    ∃ wsc, sample_fs.canon ["ws"] = some wsc
      ∧ List.isPrefixOf wsc ["ws", "a", "b"] = true := by
  obtain ⟨wsc, hwc, hpre, _⟩ :=
    (validate_path_confined sample_fs ["ws"] ⟨false, ["a", "b"]⟩ ["ws", "a", "b"] rfl).1
  exact ⟨wsc, hwc, hpre⟩

end Pocketclaw
